import Mathlib

/-!
Verification of the prompt-to-image matching core of SmartImageRenamer
(src/app.py, class PromptImageMatcher) against its natural-language
specification.

Strings are modelled as lists of characters; the helper functions below
are shallow embeddings of the Python regular-expression passes used by
PromptImageMatcher.clean_text, of difflib.SequenceMatcher.ratio, and of
the greedy matching loop in match_prompts_to_images.  Scores are exact
rationals (the Python code computes float ratios and rounds the reported
score to three decimals for display; no claim below depends on a value
where the float/rational distinction or the rounding could matter).
Character case-folding is modelled for the ASCII range, which covers
every character the regular expressions in clean_text inspect.
-/

abbrev Str := List Char

/-- Characters matched by the regex class [a-f0-9] with re.IGNORECASE. -/
def hexChar (c : Char) : Bool :=
  (('a' ≤ c && c ≤ 'f') || ('A' ≤ c && c ≤ 'F') || ('0' ≤ c && c ≤ '9'))

/-- Characters matched by the regex class [a-zA-Z0-9]. -/
def alnumChar (c : Char) : Bool :=
  (('a' ≤ c && c ≤ 'z') || ('A' ≤ c && c ≤ 'Z') || ('0' ≤ c && c ≤ '9'))

/-- Characters matched by the regex class \d. -/
def digChar (c : Char) : Bool :=
  ('0' ≤ c && c ≤ '9')

/-- ASCII whitespace matched by \s and stripped by str.strip(). -/
def spaceChar (c : Char) : Bool :=
  (c = ' ' || c = '\t' || c = '\n' || c = '\x0d' || c = '\x0b' || c = '\x0c')

/-- ASCII case folding, as applied by str.lower() to the ASCII range:
code points 65-90 are shifted up by 32, everything else is kept (the
arithmetic form of core Char.toLower). -/
def lowerChar (c : Char) : Char :=
  if 65 ≤ c.toNat ∧ c.toNat ≤ 90 then Char.ofNat (c.toNat + 32) else c

/-- str.lower() on a whole string (ASCII range). -/
def lowerStr (s : Str) : Str := s.map lowerChar

/-- Consume exactly n hexadecimal characters; return the rest on success. -/
def hexN : Nat → Str → Option Str
  | 0, l => some l
  | _ + 1, [] => none
  | n + 1, c :: cs => if hexChar c then hexN n cs else none

/-- Consume an optional single separator matched by [-_]?.  Since the
separator characters are not hexadecimal and every following pattern
element is hexadecimal, the greedy optional needs no backtracking. -/
def sepOpt : Str → Str
  | [] => []
  | c :: cs => if c = '-' || c = '_' then cs else c :: cs

/-- Attempt to match the UUID-shaped regex
[a-f0-9]{8}[-_]?[a-f0-9]{4}[-_]?[a-f0-9]{4}[-_]?[a-f0-9]{4}[-_]?[a-f0-9]{12}
at the head of the string; return the number of characters consumed. -/
def uuidMatchLen (l : Str) : Option Nat :=
  match hexN 8 l with
  | none => none
  | some r1 =>
    match hexN 4 (sepOpt r1) with
    | none => none
    | some r2 =>
      match hexN 4 (sepOpt r2) with
      | none => none
      | some r3 =>
        match hexN 4 (sepOpt r3) with
        | none => none
        | some r4 =>
          match hexN 12 (sepOpt r4) with
          | none => none
          | some r5 => some (l.length - r5.length)

/-- re.sub of the UUID pattern with the empty string: leftmost,
non-overlapping matches are deleted.  Fuel-driven so that the kernel can
evaluate it; the fuel is at least the length of the input, and every
recursive call strictly shortens the input, so it never runs out. -/
def removeUuidAux : Nat → Str → Str
  | 0, l => l
  | fuel + 1, l =>
    match l with
    | [] => []
    | c :: cs =>
      match uuidMatchLen (c :: cs) with
      | some k => removeUuidAux fuel ((c :: cs).drop k)
      | none => c :: removeUuidAux fuel cs

def removeUuid (l : Str) : Str := removeUuidAux l.length l

/-- re.sub of [a-f0-9]{6,} (IGNORECASE) with the empty string: every
maximal run of six or more hexadecimal characters is deleted. -/
def removeHexRunsAux : Nat → Str → Str
  | 0, l => l
  | fuel + 1, l =>
    match l with
    | [] => []
    | c :: cs =>
      if hexChar c then
        let run := (c :: cs).takeWhile hexChar
        let rest := (c :: cs).dropWhile hexChar
        if 6 ≤ run.length then removeHexRunsAux fuel rest
        else run ++ removeHexRunsAux fuel rest
      else c :: removeHexRunsAux fuel cs

def removeHexRuns (l : Str) : Str := removeHexRunsAux l.length l

/-- Does p occur at the start of l? -/
def startsWith : Str → Str → Bool
  | [], _ => true
  | _ :: _, [] => false
  | p :: ps, c :: cs => p = c && startsWith ps cs

/-- Length of the extension deleted by
re.sub(r'\.(png|jpg|jpeg|gif|webp)$', '', text, flags=re.IGNORECASE):
4 or 5 characters, or 0 when no recognised extension ends the string.
The reversed lowercased string is compared against the reversed
extensions; the alternatives cannot overlap, so the order is immaterial. -/
def extMatchLen (s : Str) : Nat :=
  let r := (lowerStr s).reverse
  if startsWith ['g', 'n', 'p', '.'] r then 4
  else if startsWith ['g', 'p', 'j', '.'] r then 4
  else if startsWith ['g', 'e', 'p', 'j', '.'] r then 5
  else if startsWith ['f', 'i', 'g', '.'] r then 4
  else if startsWith ['p', 'b', 'e', 'w', '.'] r then 5
  else 0

def removeExt (s : Str) : Str := s.take (s.length - extMatchLen s)

/-- re.sub(r'^[a-zA-Z0-9]+_', '', text): delete a leading alphanumeric
token together with the underscore that follows it, when present. -/
def dropLeadToken (s : Str) : Str :=
  let run := s.takeWhile alnumChar
  let rest := s.dropWhile alnumChar
  if run.length ≠ 0 then
    if rest.head? = some '_' then rest.tail else s
  else s

/-- re.sub(r'_+\d*$', '', text): delete the trailing run of digits and
the run of underscores immediately before it, provided at least one
underscore is present. -/
def dropTrailing (s : Str) : Str :=
  let afterDigits := s.reverse.dropWhile digChar
  if afterDigits.head? = some '_' then
    (afterDigits.dropWhile (fun c => c = '_')).reverse
  else s

/-- re.sub(r'_{2,}', '_', text): collapse runs of underscores. -/
def collapseUnd : Str → Str
  | [] => []
  | [c] => [c]
  | c :: d :: rest =>
    if c = '_' && d = '_' then collapseUnd (d :: rest)
    else c :: collapseUnd (d :: rest)

/-- str.strip('_'): delete leading and trailing underscores. -/
def stripUnd (s : Str) : Str :=
  ((s.dropWhile (fun c => c = '_')).reverse.dropWhile (fun c => c = '_')).reverse

/-- PromptImageMatcher.clean_text: the passes run in source order, and
the result is lowercased last. -/
def cleanText (s : Str) : Str :=
  lowerStr (stripUnd (collapseUnd (dropTrailing (dropLeadToken
    (removeExt (removeHexRuns (removeUuid s)))))))

/-!  difflib.SequenceMatcher.  The inputs here are far below the
autojunk threshold (200 elements) and no junk predicate is supplied, so
b2j holds every position of b and the junk-extension loops of
find_longest_match never fire: the block found by the quadratic scan is
already maximal.  The scan is embedded directly: row i of the dynamic
programme holds, for every j, the length of the common suffix of
a[..i] and b[..j], and the best triple is updated on strictly greater
length, scanning i ascending then j ascending, exactly as the Python
loop does. -/

/-- One row of the SequenceMatcher dynamic programme. -/
def smRow (ai : Char) (b : Str) (prev : List Nat) : List Nat :=
  List.zipWith (fun bj p => if bj = ai then p + 1 else 0) b (0 :: prev)

/-- Fold a row, updating the best (i, j, k) triple on strictly greater
run length, with j ascending. -/
def scanRowAux (i : Nat) : Nat → List Nat → Nat × Nat × Nat → Nat × Nat × Nat
  | _, [], best => best
  | j, k :: ks, (bi, bj, bk) =>
    scanRowAux i (j + 1) ks
      (if bk < k then (i + 1 - k, j + 1 - k, k) else (bi, bj, bk))

def flmAux (b : Str) : Str → Nat → List Nat → Nat × Nat × Nat → Nat × Nat × Nat
  | [], _, _, best => best
  | ai :: arest, i, prev, best =>
    let row := smRow ai b prev
    flmAux b arest (i + 1) row (scanRowAux i 0 row best)

/-- SequenceMatcher.find_longest_match over the whole of a and b. -/
def findLongestMatch (a b : Str) : Nat × Nat × Nat :=
  flmAux b a 0 (List.replicate b.length 0) (0, 0, 0)

/-- Total size of the matching blocks (get_matching_blocks): the longest
match splits the window and both sides are processed recursively.  Every
recursive window is strictly shorter than its parent, so fuel equal to
the length of a suffices. -/
def matchingSumAux : Nat → Str → Str → Nat
  | 0, _, _ => 0
  | fuel + 1, a, b =>
    match findLongestMatch a b with
    | (i, j, k) =>
      if k = 0 then 0
      else
        k + matchingSumAux fuel (a.take i) (b.take j)
          + matchingSumAux fuel (a.drop (i + k)) (b.drop (j + k))

def matchingSum (a b : Str) : Nat := matchingSumAux (a.length + 1) a b

/-- PromptImageMatcher.calculate_similarity: SequenceMatcher ratio,
2*M / (len(a) + len(b)), as an exact rational.  (Python would raise a
ZeroDivisionError on two empty strings; that case is unreachable in
find_best_match because substring containment short-circuits first, and
here it evaluates to 0.) -/
def calcSimilarity (a b : Str) : ℚ :=
  mkRat (2 * matchingSum a b) (a.length + b.length)

/-- os.path.splitext, stem part, for a bare filename: split at the last
period unless every character before it is also a period. -/
def splitExtStem (s : Str) : Str :=
  match (s.reverse).dropWhile (fun c => c ≠ '.') with
  | [] => s
  | _ :: stemRev => if stemRev.any (fun c => c ≠ '.') then stemRev.reverse else s

/-- PromptImageMatcher.extract_prompt_from_filename. -/
def extractKey (f : Str) : Str := cleanText (splitExtStem f)

/-- Does p occur contiguously somewhere in l (Python substring test)? -/
def substrB (p : Str) : Str → Bool
  | [] => p.isEmpty
  | c :: cs => startsWith p (c :: cs) || substrB p cs

/-- The containment test of find_best_match: cleaned prompt inside the
cleaned filename or the cleaned filename inside the cleaned prompt. -/
def eitherContains (cp key : Str) : Bool :=
  substrB cp key || substrB key cp

/-- Loop of PromptImageMatcher.find_best_match, with the running best
candidate and best score as accumulators.  A containment hit returns
that candidate at score 1 at once; otherwise the fuzzy ratio is taken
and the best is replaced only on a strictly greater score.  After the
loop the best is kept only when it reaches the threshold. -/
def fbmAux (thr : ℚ) (cp : Str) : List Str → Option Str → ℚ → Option Str × ℚ
  | [], best, bs => if thr ≤ bs then (best, bs) else (none, bs)
  | f :: fs, best, bs =>
    let key := extractKey f
    if eitherContains cp key then (some f, 1)
    else
      let sim := calcSimilarity cp key
      if bs < sim then fbmAux thr cp fs (some f) sim
      else fbmAux thr cp fs best bs

/-- PromptImageMatcher.find_best_match. -/
def findBestMatch (thr : ℚ) (prompt : Str) (filenames : List Str) :
    Option Str × ℚ :=
  fbmAux thr (cleanText prompt) filenames none 0

/-- re.sub(r'^\d+\.\s*', '', prompt): strip a leading list number. -/
def stripPromptNum (s : Str) : Str :=
  let ds := s.takeWhile digChar
  let rest := s.dropWhile digChar
  if ds.length ≠ 0 then
    if rest.head? = some '.' then rest.tail.dropWhile spaceChar else s
  else s

/-- str.strip(): drop whitespace at both ends. -/
def pyStrip (s : Str) : Str :=
  ((s.dropWhile spaceChar).reverse.dropWhile spaceChar).reverse

/-- Characters replaced by re.sub(r'[<>:"/\\|?*]', '_', name). -/
def badNameChar (c : Char) : Bool :=
  (c = '<' || c = '>' || c = ':' || c = '"' || c = '/' || c = '\\' ||
   c = '|' || c = '?' || c = '*')

def sanChar (c : Char) : Char := if badNameChar c then '_' else c

def sanitizeName (s : Str) : Str := s.map sanChar

def digitChar (d : Nat) : Char :=
  match d with
  | 0 => '0' | 1 => '1' | 2 => '2' | 3 => '3' | 4 => '4'
  | 5 => '5' | 6 => '6' | 7 => '7' | 8 => '8' | 9 => '9'
  | _ => '0'

/-- Decimal digits of n, most significant first. -/
def natDigitsAux : Nat → Nat → Str
  | 0, _ => []
  | fuel + 1, n =>
    if n < 10 then [digitChar n]
    else natDigitsAux fuel (n / 10) ++ [digitChar (n % 10)]

def natDigits (n : Nat) : Str := natDigitsAux (n + 1) n

/-- The Python format f-string directive i:03d: the decimal digits of i,
left-padded with zeros to at least three characters. -/
def fmt03 (i : Nat) : Str :=
  let ds := natDigits i
  List.replicate (3 - ds.length) '0' ++ ds

/-- New filename built for a matched prompt at 1-based position i:
f-string prefix i:03d, an underscore, the prompt text truncated to 50
characters, the .png suffix, all passed through the invalid-character
substitution. -/
def mkNewFilename (i : Nat) (ptext : Str) : Str :=
  sanitizeName (fmt03 i ++ '_' :: (ptext.take 50 ++ ['.', 'p', 'n', 'g']))

structure MatchRecord where
  promptNumber : Nat
  prompt : Str
  originalFilename : Str
  newFilename : Str
  similarityScore : ℚ
  deriving Repr, DecidableEq

structure MissRecord where
  promptNumber : Nat
  prompt : Str
  bestScore : ℚ
  deriving Repr, DecidableEq

/-- The results dictionary of match_prompts_to_images.  The file_data
entry of each match is the uploaded byte handle looked up by original
filename; it is opaque to the matching logic and not modelled.  The
summary counters equal the lengths of the two record lists because the
code increments exactly one of them per prompt. -/
structure RunResults where
  matches' : List MatchRecord
  missing : List MissRecord
  totalPrompts : Nat
  matchedCount : Nat
  missingCount : Nat
  deriving Repr, DecidableEq

/-- The per-prompt loop of match_prompts_to_images.  files is the full
candidate name list; used accumulates consumed names; the remaining
candidates are the unconsumed files.  Python materialises the remaining
set as list(available_filenames - used_filenames), whose iteration
order is hash-dependent; the embedding realises one concrete iteration
order by filtering the files list in place, and order-sensitive claims
treat that order as an input. -/
def matchLoop (thr : ℚ) (files : List Str) :
    List Str → Nat → List Str → List MatchRecord × List MissRecord
  | [], _, _ => ([], [])
  | p :: ps, i, used =>
    let ptext := pyStrip (stripPromptNum p)
    let cands := files.filter (fun f => !(used.contains f))
    match findBestMatch thr ptext cands with
    | (some f, score) =>
      let tailRes := matchLoop thr files ps (i + 1) (f :: used)
      ({ promptNumber := i, prompt := ptext, originalFilename := f,
         newFilename := mkNewFilename i ptext,
         similarityScore := score } :: tailRes.1, tailRes.2)
    | (none, score) =>
      let tailRes := matchLoop thr files ps (i + 1) used
      (tailRes.1, { promptNumber := i, prompt := ptext,
                    bestScore := score } :: tailRes.2)

/-- PromptImageMatcher.match_prompts_to_images. -/
def matchPromptsToImages (prompts files : List Str) (thr : ℚ) : RunResults :=
  let pr := matchLoop thr files prompts 1 []
  { matches' := pr.1, missing := pr.2, totalPrompts := prompts.length,
    matchedCount := pr.1.length, missingCount := pr.2.length }

/-- The input-validation block of the Streamlit layer (src/app.py,
lines 192-205): an empty prompt list or an empty image upload is
reported with an on-screen error message and the matcher is never
invoked; otherwise the matcher runs with the configured threshold. -/
def appRun (prompts files : List Str) (thr : ℚ) : Except Str RunResults :=
  if prompts.isEmpty then
    .error ("❌ Please provide prompts either by uploading a file or " ++
            "entering them manually.").data
  else if files.isEmpty then
    .error "❌ Please upload PNG images.".data
  else
    .ok (matchPromptsToImages prompts files thr)

/-!  Helper lemmas about the find_best_match loop. -/

/-- The empty pattern occurs in every string. -/
theorem substrB_nil (l : Str) : substrB [] l = true := by
  cases l with
  | nil => rfl
  | cons c cs => simp [substrB, startsWith]

/-- A candidate returned by the loop comes from the candidate list or
from the running best accumulator. -/
theorem fbmAux_mem (thr : ℚ) (cp : Str) :
    ∀ (fs : List Str) (best : Option Str) (bs : ℚ) (f : Str) (s : ℚ),
      fbmAux thr cp fs best bs = (some f, s) → f ∈ fs ∨ best = some f := by
  intro fs
  induction fs with
  | nil =>
    intro best bs f s h
    simp only [fbmAux] at h
    split at h
    · exact Or.inr (congrArg Prod.fst h)
    · exact absurd (congrArg Prod.fst h) (by simp)
  | cons f0 fs ih =>
    intro best bs f s h
    simp only [fbmAux] at h
    split at h
    · have : f0 = f := by
        have := congrArg Prod.fst h
        simpa using this
      exact Or.inl (this ▸ List.mem_cons_self f0 fs)
    · split at h
      · rcases ih _ _ _ _ h with hm | hb
        · exact Or.inl (List.mem_cons_of_mem _ hm)
        · have : f0 = f := by simpa using hb
          exact Or.inl (this ▸ List.mem_cons_self f0 fs)
      · rcases ih _ _ _ _ h with hm | hb
        · exact Or.inl (List.mem_cons_of_mem _ hm)
        · exact Or.inr hb

/-- A candidate returned by find_best_match is one of the candidates. -/
theorem findBestMatch_mem (thr : ℚ) (p : Str) (fs : List Str) (f : Str)
    (s : ℚ) (h : findBestMatch thr p fs = (some f, s)) : f ∈ fs := by
  rcases fbmAux_mem thr (cleanText p) fs none 0 f s h with hm | hb
  · exact hm
  · exact absurd hb (by simp)

/-- If some candidate key contains the cleaned prompt (or conversely),
the loop returns score 1 together with such a candidate. -/
theorem fbmAux_containment (thr : ℚ) (cp : Str) :
    ∀ (fs : List Str) (best : Option Str) (bs : ℚ),
      (∃ f ∈ fs, eitherContains cp (extractKey f) = true) →
      ∃ g ∈ fs, fbmAux thr cp fs best bs = (some g, 1) ∧
        eitherContains cp (extractKey g) = true := by
  intro fs
  induction fs with
  | nil => intro best bs h; rcases h with ⟨f, hf, _⟩; cases hf
  | cons f0 fs ih =>
    intro best bs h
    by_cases h0 : eitherContains cp (extractKey f0) = true
    · refine ⟨f0, List.mem_cons_self f0 fs, ?_, h0⟩
      simp [fbmAux, h0]
    · rcases h with ⟨f, hf, hc⟩
      rcases List.mem_cons.mp hf with rfl | hmem
      · exact absurd hc h0
      · have step : ∀ b bs1, fbmAux thr cp (f0 :: fs) b bs1 =
            (if bs1 < calcSimilarity cp (extractKey f0) then
              fbmAux thr cp fs (some f0) (calcSimilarity cp (extractKey f0))
            else fbmAux thr cp fs b bs1) := by
          intro b bs1
          simp [fbmAux, h0]
        rcases ih (some f0) (calcSimilarity cp (extractKey f0)) ⟨f, hmem, hc⟩
          with ⟨g, hg, hres, hgc⟩
        rcases ih best bs ⟨f, hmem, hc⟩ with ⟨g2, hg2, hres2, hg2c⟩
        by_cases hlt : bs < calcSimilarity cp (extractKey f0)
        · exact ⟨g, List.mem_cons_of_mem _ hg, by rw [step, if_pos hlt]; exact hres, hgc⟩
        · exact ⟨g2, List.mem_cons_of_mem _ hg2, by rw [step, if_neg hlt]; exact hres2, hg2c⟩

/-- The first candidate in iteration order whose key passes the
containment test is the one returned, at score 1. -/
theorem fbmAux_first_containment (thr : ℚ) (cp : Str) :
    ∀ (fs1 : List Str) (f : Str) (fs2 : List Str) (best : Option Str) (bs : ℚ),
      (∀ g ∈ fs1, eitherContains cp (extractKey g) = false) →
      eitherContains cp (extractKey f) = true →
      fbmAux thr cp (fs1 ++ f :: fs2) best bs = (some f, 1) := by
  intro fs1
  induction fs1 with
  | nil =>
    intro f fs2 best bs _ hf
    simp [fbmAux, hf]
  | cons g0 gs ih =>
    intro f fs2 best bs hnone hf
    have hg0 : eitherContains cp (extractKey g0) = false :=
      hnone g0 (List.mem_cons_self g0 gs)
    have hrest : ∀ g ∈ gs, eitherContains cp (extractKey g) = false :=
      fun g hg => hnone g (List.mem_cons_of_mem _ hg)
    simp only [List.cons_append, fbmAux, hg0]
    split
    · exact absurd hg0 (by simp_all)
    · split
      · exact ih f fs2 _ _ hrest hf
      · exact ih f fs2 _ _ hrest hf

/-- C6: whenever the normalized keys of a prompt and some candidate
satisfy containment (the cleaned prompt is a substring of the cleaned
candidate key or conversely), find_best_match returns score 1.0 and a
containment candidate, for every configured threshold — so a containment
candidate is selected over every candidate whose score comes only from
the fuzzy sequence-alignment strategy, and the threshold never rejects
it. -/
theorem c6_containment_scores_one_and_wins (thr : ℚ) (prompt : Str)
    (fs : List Str)
    (h : ∃ f ∈ fs, eitherContains (cleanText prompt) (extractKey f) = true) :
    ∃ g ∈ fs, findBestMatch thr prompt fs = (some g, 1) ∧
      eitherContains (cleanText prompt) (extractKey g) = true :=
  fbmAux_containment thr (cleanText prompt) fs none 0 h

/-- Witness for C6 at a concrete input: prompt p1 against the candidate
x_p1_aaa.png, whose cleaned key p1_aaa contains p1; the threshold plays
no role. -/
theorem c6_containment_witness :
    (∃ f ∈ ["x_p1_aaa.png".data],
      eitherContains (cleanText "p1".data) (extractKey f) = true) ∧
    (∃ g ∈ ["x_p1_aaa.png".data],
      findBestMatch (mkRat 17 20) "p1".data ["x_p1_aaa.png".data] = (some g, 1) ∧
      eitherContains (cleanText "p1".data) (extractKey g) = true) :=
  ⟨by decide, c6_containment_scores_one_and_wins (mkRat 17 20) "p1".data
    ["x_p1_aaa.png".data] (by decide)⟩

/-- C9 (counterexample): the assignment is not a function of the
candidate collection alone — presenting the same two candidate files in
the two possible iteration orders of the set yields different match
records, because both files pass the containment test for prompt p1 and
find_best_match returns the first of them in iteration order.  Python
materialises the remaining candidates as list(available - used), whose
order depends on the per-process string hashing, so two runs of the
program on the same inputs need not agree. -/
theorem c9_assignment_depends_on_iteration_order :
    matchPromptsToImages ["p1".data]
      ["x_p1_aaa.png".data, "y_p1_bbb.png".data] (mkRat 17 20) ≠
    matchPromptsToImages ["p1".data]
      ["y_p1_bbb.png".data, "x_p1_aaa.png".data] (mkRat 17 20) := by decide

/-- C9 (amended): for a fixed iteration order the selection is the
deterministic one the code implements: the first candidate in iteration
order whose key passes the containment test is returned with score 1,
regardless of the threshold and of any fuzzy scores of earlier
candidates.  There is no strategy-tier tie-break: containment
short-circuits the scan, and the fuzzy fold replaces its best candidate
only on a strictly greater ratio, so among fuzzy ties the earlier
candidate wins. -/
theorem c9_first_containment_candidate_wins (thr : ℚ) (prompt : Str)
    (fs1 : List Str) (f : Str) (fs2 : List Str)
    (h1 : ∀ g ∈ fs1, eitherContains (cleanText prompt) (extractKey g) = false)
    (h2 : eitherContains (cleanText prompt) (extractKey f) = true) :
    findBestMatch thr prompt (fs1 ++ f :: fs2) = (some f, 1) :=
  fbmAux_first_containment thr (cleanText prompt) fs1 f fs2 none 0 h1 h2

/-- Witness for C9 at a concrete input: the candidate zz_qq.png fails
containment for prompt p1, so the later candidate x_p1_aaa.png is
selected with score 1. -/
theorem c9_first_containment_witness :
    (∀ g ∈ ["zz_qq.png".data],
      eitherContains (cleanText "p1".data) (extractKey g) = false) ∧
    eitherContains (cleanText "p1".data) (extractKey "x_p1_aaa.png".data) = true ∧
    findBestMatch (mkRat 17 20) "p1".data
      (["zz_qq.png".data] ++ "x_p1_aaa.png".data :: []) =
      (some "x_p1_aaa.png".data, 1) :=
  ⟨by decide, by decide,
    c9_first_containment_candidate_wins (mkRat 17 20) "p1".data
      ["zz_qq.png".data] "x_p1_aaa.png".data [] (by decide) (by decide)⟩

/-- C10: a prompt whose normalized key is empty (for instance raw text
the normalizer deletes entirely) matches the first candidate in
iteration order with score 1.0 whenever at least one candidate exists,
because the empty string is a substring of every candidate key. -/
theorem c10_empty_prompt_key_matches_first (thr : ℚ) (prompt f : Str)
    (fs : List Str) (h : cleanText prompt = []) :
    findBestMatch thr prompt (f :: fs) = (some f, 1) := by
  unfold findBestMatch
  rw [h]
  simp [fbmAux, eitherContains, substrB_nil]

/-- Witness for C10 at a concrete input: clean_text deletes all of a_,
and the first of the two candidates is returned with score 1. -/
theorem c10_empty_key_witness :
    cleanText "a_".data = [] ∧
    findBestMatch (mkRat 17 20) "a_".data
      ["foo.png".data, "bar.png".data] = (some "foo.png".data, 1) :=
  ⟨by decide, c10_empty_prompt_key_matches_first (mkRat 17 20) "a_".data
    "foo.png".data ["bar.png".data] (by decide)⟩

/-- The fuzzy-only selection described by the specification for the
final rung of the strategy ladder: fold over the candidates keeping the
best sequence-alignment ratio, replacing on strictly greater scores
only, and gate the final best by the threshold.  This definition omits
the containment branch of fbmAux; claim C7 compares the two. -/
def fuzzyFold (thr : ℚ) (cp : Str) : List Str → Option Str → ℚ → Option Str × ℚ
  | [], best, bs => if thr ≤ bs then (best, bs) else (none, bs)
  | f :: fs, best, bs =>
    let sim := calcSimilarity cp (extractKey f)
    if bs < sim then fuzzyFold thr cp fs (some f) sim
    else fuzzyFold thr cp fs best bs

def fuzzyOnlyMatch (thr : ℚ) (prompt : Str) (fs : List Str) :
    Option Str × ℚ :=
  fuzzyFold thr (cleanText prompt) fs none 0

/-- C7 (counterexample): the scorer has no numeric-ID rung.  The cleaned
keys of prompt take 12 red and candidate x_12_blue_y.png both expose the
integer token 12, yet the score is the fuzzy ratio 3/10, not 1.0, and
the candidate is rejected at the default threshold. -/
theorem c7_no_numeric_id_strategy :
    findBestMatch (mkRat 17 20) "take 12 red".data ["x_12_blue_y.png".data] =
      (none, mkRat 3 10) ∧ mkRat 3 10 < 1 := by decide

/-- C7 (amended): the ladder of find_best_match is containment followed
directly by the fuzzy sequence-alignment fallback; when no candidate
passes the containment test the outcome is exactly the fuzzy-only fold. -/
theorem c7_ladder_is_containment_then_fuzzy (thr : ℚ) (prompt : Str)
    (fs : List Str)
    (h : ∀ f ∈ fs, eitherContains (cleanText prompt) (extractKey f) = false) :
    findBestMatch thr prompt fs = fuzzyOnlyMatch thr prompt fs := by
  unfold findBestMatch fuzzyOnlyMatch
  generalize hb : (none : Option Str) = best
  generalize hs : (0 : ℚ) = bs
  clear hb hs
  induction fs generalizing best bs with
  | nil => rfl
  | cons f0 fs ih =>
    have h0 : eitherContains (cleanText prompt) (extractKey f0) = false :=
      h f0 (List.mem_cons_self f0 fs)
    have hrest : ∀ f ∈ fs, eitherContains (cleanText prompt) (extractKey f) = false :=
      fun f hf => h f (List.mem_cons_of_mem _ hf)
    simp only [fbmAux, fuzzyFold, h0, Bool.false_eq_true, if_false]
    split
    · exact ih hrest _ _
    · exact ih hrest _ _

/-- Witness for C7 at a concrete input: no containment holds between
take 12 red and x_12_blue_y.png, and the result coincides with the
fuzzy-only fold. -/
theorem c7_ladder_witness :
    (∀ f ∈ ["x_12_blue_y.png".data],
      eitherContains (cleanText "take 12 red".data) (extractKey f) = false) ∧
    findBestMatch (mkRat 17 20) "take 12 red".data ["x_12_blue_y.png".data] =
      fuzzyOnlyMatch (mkRat 17 20) "take 12 red".data ["x_12_blue_y.png".data] :=
  ⟨by decide, c7_ladder_is_containment_then_fuzzy (mkRat 17 20)
    "take 12 red".data ["x_12_blue_y.png".data] (by decide)⟩

/-!  Helper lemmas about the per-prompt loop. -/

/-- A filename surviving the remaining-candidates filter is unconsumed. -/
theorem mem_filter_not_contains (files used : List Str) (f : Str)
    (h : f ∈ files.filter (fun g => !(used.contains g))) : f ∉ used := by
  have := (List.mem_filter.mp h).2
  simpa using this

/-- The filenames of the match records of a loop run are pairwise
distinct and none of them was consumed before the loop started. -/
theorem matchLoop_nodup (thr : ℚ) (files : List Str) :
    ∀ (ps : List Str) (i : Nat) (used : List Str),
      ((matchLoop thr files ps i used).1.map (·.originalFilename)).Nodup ∧
      ∀ g ∈ (matchLoop thr files ps i used).1.map (·.originalFilename),
        g ∉ used := by
  intro ps
  induction ps with
  | nil => intro i used; simp [matchLoop]
  | cons p ps ih =>
    intro i used
    rcases hfb : findBestMatch thr (pyStrip (stripPromptNum p))
      (files.filter (fun g => !(used.contains g))) with ⟨mf, score⟩
    cases mf with
    | none =>
      have hm : (matchLoop thr files (p :: ps) i used).1 =
          (matchLoop thr files ps (i + 1) used).1 := by
        simp only [matchLoop]
        rw [hfb]
      rw [hm]
      exact ih (i + 1) used
    | some f =>
      have hf : f ∈ files.filter (fun g => !(used.contains g)) :=
        findBestMatch_mem thr _ _ f score hfb
      have hfused : f ∉ used := mem_filter_not_contains files used f hf
      have hm : (matchLoop thr files (p :: ps) i used).1 =
          { promptNumber := i, prompt := pyStrip (stripPromptNum p),
            originalFilename := f,
            newFilename := mkNewFilename i (pyStrip (stripPromptNum p)),
            similarityScore := score } ::
            (matchLoop thr files ps (i + 1) (f :: used)).1 := by
        simp only [matchLoop]
        rw [hfb]
      rw [hm]
      rcases ih (i + 1) (f :: used) with ⟨hnd, hnotin⟩
      constructor
      · simp only [List.map_cons, List.nodup_cons]
        refine ⟨?_, hnd⟩
        intro hmem
        exact (hnotin f hmem) (List.mem_cons_self f used)
      · intro g hg
        simp only [List.map_cons, List.mem_cons] at hg
        rcases hg with rfl | hg
        · exact hfused
        · intro hgu
          exact (hnotin g hg) (List.mem_cons_of_mem _ hgu)

/-- Every prompt contributes exactly one record, either matched or
missing. -/
theorem matchLoop_length (thr : ℚ) (files : List Str) :
    ∀ (ps : List Str) (i : Nat) (used : List Str),
      (matchLoop thr files ps i used).1.length +
        (matchLoop thr files ps i used).2.length = ps.length := by
  intro ps
  induction ps with
  | nil => intro i used; simp [matchLoop]
  | cons p ps ih =>
    intro i used
    rcases hfb : findBestMatch thr (pyStrip (stripPromptNum p))
      (files.filter (fun g => !(used.contains g))) with ⟨mf, score⟩
    cases mf with
    | none =>
      simp only [matchLoop, hfb, List.length_cons]
      rw [Nat.add_succ, ih (i + 1) used]
    | some f =>
      simp only [matchLoop, hfb, List.length_cons]
      rw [Nat.succ_add, ih (i + 1) (f :: used)]

/-- C1: the assignment is a partial injection from prompts to files —
for every prompt list, candidate collection and threshold, no two match
records of a run reference the same candidate file; in particular, with
two identical prompts and a single candidate, the first prompt consumes
the only candidate and the second is reported missing. -/
theorem c1_assignment_partial_injection :
    (∀ (thr : ℚ) (prompts files : List Str),
      ((matchPromptsToImages prompts files thr).matches'.map
        (·.originalFilename)).Nodup) ∧
    (matchPromptsToImages ["p1".data, "p1".data] ["x_p1_aaa.png".data]
      (mkRat 17 20)).matches'.map (·.originalFilename) =
        ["x_p1_aaa.png".data] ∧
    (matchPromptsToImages ["p1".data, "p1".data] ["x_p1_aaa.png".data]
      (mkRat 17 20)).missing.map (·.promptNumber) = [2] :=
  ⟨fun thr prompts files => (matchLoop_nodup thr files prompts 1 []).1,
    by decide, by decide⟩

/-- C4 (counterexample): with one prompt that matches nothing, the
matches list of the report is empty, so its length differs from the
number of prompts; the claim len(matches) == len(prompts) fails. -/
theorem c4_matches_shorter_than_prompts :
    (matchPromptsToImages ["zzzz".data] ["qqq_www.png".data]
      (mkRat 17 20)).matches'.length ≠ ["zzzz".data].length := by decide

/-- C4 (amended): every prompt produces exactly one record, but the
records are split between the matches list and the missing list:
len(matches) + len(missing) == len(prompts) always, and the summary
counters agree with the two lists. -/
theorem c4_records_partition_prompts (thr : ℚ) (prompts files : List Str) :
    (matchPromptsToImages prompts files thr).matches'.length +
      (matchPromptsToImages prompts files thr).missing.length =
        prompts.length ∧
    (matchPromptsToImages prompts files thr).matchedCount =
      (matchPromptsToImages prompts files thr).matches'.length ∧
    (matchPromptsToImages prompts files thr).missingCount =
      (matchPromptsToImages prompts files thr).missing.length ∧
    (matchPromptsToImages prompts files thr).totalPrompts = prompts.length :=
  ⟨matchLoop_length thr files prompts 1 [], rfl, rfl, rfl⟩

/-- With no candidates the loop of find_best_match returns no match and
best score 0, for every threshold. -/
theorem findBestMatch_empty (thr : ℚ) (p : Str) :
    findBestMatch thr p [] = (none, 0) := by
  show fbmAux thr (cleanText p) [] none 0 = (none, 0)
  show (if thr ≤ 0 then ((none : Option Str), (0 : ℚ)) else (none, 0)) =
    (none, 0)
  split <;> rfl

/-- With an empty candidate collection every prompt is processed and
reported missing: nothing fails fast. -/
theorem matchLoop_no_files (thr : ℚ) :
    ∀ (ps : List Str) (i : Nat) (used : List Str),
      (matchLoop thr [] ps i used).1 = [] ∧
      (matchLoop thr [] ps i used).2.length = ps.length := by
  intro ps
  induction ps with
  | nil => intro i used; simp [matchLoop]
  | cons p ps ih =>
    intro i used
    have hfb : findBestMatch thr (pyStrip (stripPromptNum p))
        (([] : List Str).filter (fun g => !(used.contains g))) = (none, 0) :=
      findBestMatch_empty thr _
    have h1 : (matchLoop thr [] (p :: ps) i used).1 =
        (matchLoop thr [] ps (i + 1) used).1 := by
      simp only [matchLoop]
      rw [hfb]
    have h2 : (matchLoop thr [] (p :: ps) i used).2 =
        { promptNumber := i, prompt := pyStrip (stripPromptNum p),
          bestScore := 0 } :: (matchLoop thr [] ps (i + 1) used).2 := by
      simp only [matchLoop]
      rw [hfb]
    refine ⟨?_, ?_⟩
    · rw [h1]; exact (ih (i + 1) used).1
    · rw [h2]; simp [(ih (i + 1) used).2]

/-- C5 (counterexample): the code defines no NoPromptsError or
NoCandidatesError anywhere.  The matcher called with an empty prompt
list returns an ordinary empty report instead of failing, and called
with prompts but an empty candidate collection it runs the per-prompt
loop and reports the prompt missing instead of failing fast. -/
theorem c5_matcher_returns_normally_on_empty_inputs :
    matchPromptsToImages [] ["a.png".data] (mkRat 17 20) =
      { matches' := [], missing := [], totalPrompts := 0,
        matchedCount := 0, missingCount := 0 } ∧
    matchPromptsToImages ["p1".data] [] (mkRat 17 20) =
      { matches' := [],
        missing := [{ promptNumber := 1, prompt := "p1".data,
                      bestScore := 0 }],
        totalPrompts := 1, matchedCount := 0, missingCount := 1 } := by
  exact ⟨by decide, by decide⟩

/-- C5 (amended): empty inputs are rejected in the Streamlit layer,
which shows an on-screen error message and never invokes the matcher;
the matcher itself raises nothing: on an empty prompt list it returns an
empty report, and on an empty candidate collection it emits one missing
record per prompt. -/
theorem c5_empty_inputs_rejected_by_app_layer :
    (∀ (files : List Str) (thr : ℚ), appRun [] files thr =
      .error ("❌ Please provide prompts either by uploading a file or " ++
              "entering them manually.").data) ∧
    (∀ (p : Str) (ps : List Str) (thr : ℚ), appRun (p :: ps) [] thr =
      .error "❌ Please upload PNG images.".data) ∧
    (∀ (files : List Str) (thr : ℚ), matchPromptsToImages [] files thr =
      { matches' := [], missing := [], totalPrompts := 0,
        matchedCount := 0, missingCount := 0 }) ∧
    (∀ (prompts : List Str) (thr : ℚ),
      (matchPromptsToImages prompts [] thr).matches' = [] ∧
      (matchPromptsToImages prompts [] thr).missingCount = prompts.length) := by
  refine ⟨fun files thr => rfl, fun p ps thr => rfl, fun files thr => rfl,
    fun prompts thr => ?_⟩
  rcases matchLoop_no_files thr prompts 1 [] with ⟨h1, h2⟩
  exact ⟨h1, h2⟩

/-- The run of specification Scenario 1: the two prompts of the
scenario against its two candidate files, at the default threshold. -/
def scenario1Run : RunResults :=
  matchPromptsToImages
    ["A cat sleeping on a window".data,
     "A futuristic city with flying cars".data]
    ["user9_A_futuristic_city_with_flying_cars_8ff92123.png".data,
     "user1_A_cat_sleeping_on_a_window_abc12345.png".data]
    (mkRat 17 20)

/-- C3 (counterexample): Scenario 1 does not produce two matches with
zero missing prompts — the run leaves the first prompt missing and only
the second matched, so one candidate file also goes unused. -/
theorem c3_scenario1_has_missing_prompt :
    scenario1Run.missingCount = 1 ∧ scenario1Run.matchedCount = 1 := by
  decide

/-- C3 (amended): on the Scenario 1 input, clean_text keeps the spaces
of the prompts and the underscores of the filename stems, so containment
fails for both pairs and only the fuzzy ratio applies: the cat prompt
scores 21/26 (about 0.808) against its file and is reported missing at
the default threshold 0.85, while the city prompt scores 29/34 (about
0.853) against its file and is matched; the cat file stays unused. -/
theorem c3_scenario1_actual_outcome :
    scenario1Run =
      { matches' :=
          [{ promptNumber := 2,
             prompt := "A futuristic city with flying cars".data,
             originalFilename :=
               "user9_A_futuristic_city_with_flying_cars_8ff92123.png".data,
             newFilename :=
               "002_A futuristic city with flying cars.png".data,
             similarityScore := mkRat 29 34 }],
        missing :=
          [{ promptNumber := 1,
             prompt := "A cat sleeping on a window".data,
             bestScore := mkRat 21 26 }],
        totalPrompts := 2, matchedCount := 1, missingCount := 1 } := by
  decide

/-- Strict lexicographic order on character lists, the order a file
listing sorted by name uses (used to state claim C8). -/
def lexLt : Str → Str → Bool
  | [], [] => false
  | [], _ :: _ => true
  | _ :: _, [] => false
  | a :: as, b :: bs => if a < b then true else if a = b then lexLt as bs else false

set_option maxRecDepth 20000 in
/-- For 1000 values the padded formatter yields exactly the three
decimal digits. -/
theorem fmt03_digits :
    ∀ i, i < 1000 →
      fmt03 i = [digitChar (i / 100), digitChar (i / 10 % 10),
        digitChar (i % 10)] := by
  decide

theorem fmt03_length (n : Nat) (h : n ≤ 999) : (fmt03 n).length = 3 := by
  rw [fmt03_digits n (by omega)]
  rfl

theorem digitChar_lt_iff :
    ∀ a, a ≤ 9 → ∀ b, b ≤ 9 → ((digitChar a < digitChar b) ↔ a < b) := by
  decide

theorem digitChar_inj :
    ∀ a, a ≤ 9 → ∀ b, b ≤ 9 → ((digitChar a = digitChar b) ↔ a = b) := by
  decide

theorem badNameChar_digitChar (d : Nat) : badNameChar (digitChar d) = false := by
  match d with
  | 0 | 1 | 2 | 3 | 4 | 5 | 6 | 7 | 8 | 9 => rfl
  | n + 10 => rfl

/-- A strict lexicographic comparison of equal-length lists survives
appending arbitrary tails. -/
theorem lexLt_append :
    ∀ (xs ys u v : Str), xs.length = ys.length → lexLt xs ys = true →
      lexLt (xs ++ u) (ys ++ v) = true := by
  intro xs
  induction xs with
  | nil =>
    intro ys u v hlen hlt
    cases ys with
    | nil => exact absurd hlt (by simp [lexLt])
    | cons b bs => exact absurd hlen (by simp)
  | cons a as ih =>
    intro ys u v hlen hlt
    cases ys with
    | nil => exact absurd hlen (by simp)
    | cons b bs =>
      simp only [lexLt] at hlt
      simp only [List.cons_append, lexLt]
      by_cases hab : a < b
      · rw [if_pos hab]
      · rw [if_neg hab] at hlt ⊢
        by_cases heq : a = b
        · rw [if_pos heq] at hlt ⊢
          exact ih bs u v (by simpa using hlen) hlt
        · rw [if_neg heq] at hlt
          cases hlt

/-- The padded decimal formatter is strictly monotone with respect to
lexicographic order up to 999. -/
theorem fmt03_mono (i j : Nat) (hij : i < j) (hj : j ≤ 999) :
    lexLt (fmt03 i) (fmt03 j) = true := by
  have hi : i < 1000 := by omega
  have hj2 : j < 1000 := by omega
  rw [fmt03_digits i hi, fmt03_digits j hj2]
  have h1 : i / 100 ≤ 9 := by omega
  have h2 : j / 100 ≤ 9 := by omega
  have h3 : i / 10 % 10 ≤ 9 := by omega
  have h4 : j / 10 % 10 ≤ 9 := by omega
  have h5 : i % 10 ≤ 9 := by omega
  have h6 : j % 10 ≤ 9 := by omega
  simp only [lexLt]
  by_cases c1 : i / 100 < j / 100
  · rw [if_pos ((digitChar_lt_iff _ h1 _ h2).mpr c1)]
  · rw [if_neg (fun h => c1 ((digitChar_lt_iff _ h1 _ h2).mp h))]
    have e1 : i / 100 = j / 100 := by omega
    rw [if_pos ((digitChar_inj _ h1 _ h2).mpr e1)]
    by_cases c2 : i / 10 % 10 < j / 10 % 10
    · rw [if_pos ((digitChar_lt_iff _ h3 _ h4).mpr c2)]
    · rw [if_neg (fun h => c2 ((digitChar_lt_iff _ h3 _ h4).mp h))]
      have e2 : i / 10 % 10 = j / 10 % 10 := by omega
      rw [if_pos ((digitChar_inj _ h3 _ h4).mpr e2)]
      have c3 : i % 10 < j % 10 := by omega
      rw [if_pos ((digitChar_lt_iff _ h5 _ h6).mpr c3)]

/-- The decimal digit lists consist of digit characters only. -/
theorem natDigitsAux_digitChar :
    ∀ (fuel n : Nat), ∀ c ∈ natDigitsAux fuel n, ∃ d, c = digitChar d := by
  intro fuel
  induction fuel with
  | zero => intro n c hc; cases hc
  | succ fuel ih =>
    intro n c hc
    by_cases h : n < 10
    · simp only [natDigitsAux, if_pos h, List.mem_singleton] at hc
      exact ⟨n, hc⟩
    · simp only [natDigitsAux, if_neg h, List.mem_append,
        List.mem_singleton] at hc
      rcases hc with hc | hc
      · exact ih (n / 10) c hc
      · exact ⟨n % 10, hc⟩

/-- The invalid-character substitution leaves the padded numeric prefix
untouched. -/
theorem sanitize_fmt03 (n : Nat) : List.map sanChar (fmt03 n) = fmt03 n := by
  unfold fmt03
  rw [List.map_append]
  have h1 : List.map sanChar (List.replicate (3 - (natDigits n).length) '0') =
      List.replicate (3 - (natDigits n).length) '0' := by
    rw [List.map_replicate]
    rfl
  have h2 : List.map sanChar (natDigits n) = natDigits n := by
    have := natDigitsAux_digitChar (n + 1) n
    calc List.map sanChar (natDigits n)
        = List.map id (natDigits n) := by
          refine List.map_congr_left ?_
          intro c hc
          rcases this c hc with ⟨d, rfl⟩
          simp [sanChar, badNameChar_digitChar]
      _ = natDigits n := List.map_id _
  rw [h1, h2]

/-- The target filename splits as the untouched numeric prefix followed
by the sanitised prompt-derived tail. -/
theorem mkNewFilename_decomp (n : Nat) (p : Str) :
    mkNewFilename n p =
      fmt03 n ++ List.map sanChar ('_' :: (p.take 50 ++ ['.', 'p', 'n', 'g'])) := by
  unfold mkNewFilename sanitizeName
  rw [List.map_append, sanitize_fmt03]

/-- Bounds, name construction and strict ordering of the sequence
numbers of the match records produced by the loop. -/
theorem matchLoop_records (thr : ℚ) (files : List Str) :
    ∀ (ps : List Str) (i : Nat) (used : List Str),
      (∀ r ∈ (matchLoop thr files ps i used).1,
        i ≤ r.promptNumber ∧ r.promptNumber < i + ps.length ∧
        r.newFilename = mkNewFilename r.promptNumber r.prompt) ∧
      List.Pairwise (fun a b => a.promptNumber < b.promptNumber)
        (matchLoop thr files ps i used).1 := by
  intro ps
  induction ps with
  | nil => intro i used; simp [matchLoop]
  | cons p ps ih =>
    intro i used
    rcases hfb : findBestMatch thr (pyStrip (stripPromptNum p))
      (files.filter (fun g => !(used.contains g))) with ⟨mf, score⟩
    cases mf with
    | none =>
      have hm : (matchLoop thr files (p :: ps) i used).1 =
          (matchLoop thr files ps (i + 1) used).1 := by
        simp only [matchLoop]
        rw [hfb]
      rw [hm]
      rcases ih (i + 1) used with ⟨hbound, hpair⟩
      refine ⟨fun r hr => ?_, hpair⟩
      rcases hbound r hr with ⟨h1, h2, h3⟩
      refine ⟨by omega, ?_, h3⟩
      simp only [List.length_cons]
      omega
    | some f =>
      have hm : (matchLoop thr files (p :: ps) i used).1 =
          { promptNumber := i, prompt := pyStrip (stripPromptNum p),
            originalFilename := f,
            newFilename := mkNewFilename i (pyStrip (stripPromptNum p)),
            similarityScore := score } ::
            (matchLoop thr files ps (i + 1) (f :: used)).1 := by
        simp only [matchLoop]
        rw [hfb]
      rw [hm]
      rcases ih (i + 1) (f :: used) with ⟨hbound, hpair⟩
      constructor
      · intro r hr
        rcases List.mem_cons.mp hr with rfl | hr
        · refine ⟨Nat.le_refl i, ?_, rfl⟩
          simp only [List.length_cons]
          omega
        · rcases hbound r hr with ⟨h1, h2, h3⟩
          refine ⟨by omega, ?_, h3⟩
          simp only [List.length_cons]
          omega
      · refine List.Pairwise.cons ?_ hpair
        intro r hr
        have := (hbound r hr).1
        show i < r.promptNumber
        omega

/-- C8 (counterexample): a matched prompt at index 1 is renamed to
001_p1.png, the padded index followed by the truncated prompt text and
the .png suffix — not to the bare zero-padded index 001.png the claim
states. -/
theorem c8_target_name_not_bare_index :
    (matchPromptsToImages ["p1".data] ["x_p1_aaa.png".data]
      (mkRat 17 20)).matches'.map (·.newFilename) = ["001_p1.png".data] ∧
    "001_p1.png".data ≠ "001.png".data := by decide

/-- C8 (amended): the emitted name for the prompt at 1-based index i is
the f-string i:03d followed by an underscore, the prompt text truncated
to 50 characters and .png, the whole run through the invalid-character
substitution; the numeric prefix is padded to fixed width 3 (wider only
when i itself needs more digits), so for runs of at most 999 prompts the
emitted filenames are strictly increasing in lexicographic order,
reproducing prompt order. -/
theorem c8_names_lex_ordered (thr : ℚ) (prompts files : List Str)
    (h : prompts.length ≤ 999) :
    List.Pairwise (fun a b => lexLt a b = true)
      ((matchPromptsToImages prompts files thr).matches'.map
        (·.newFilename)) := by
  rcases matchLoop_records thr files prompts 1 [] with ⟨hbound, hpair⟩
  rw [List.pairwise_map]
  refine hpair.imp_of_mem ?_
  intro a b ha hb hlt
  rcases hbound a ha with ⟨ha1, ha2, ha3⟩
  rcases hbound b hb with ⟨hb1, hb2, hb3⟩
  rw [ha3, hb3, mkNewFilename_decomp, mkNewFilename_decomp]
  refine lexLt_append _ _ _ _ ?_ ?_
  · rw [fmt03_length _ (by omega), fmt03_length _ (by omega)]
  · exact fmt03_mono _ _ hlt (by omega)

/-- Witness for C8 at a concrete input: two matched prompts yield the
names 001_p1.png and 002_p2.png, in strict lexicographic order. -/
theorem c8_names_lex_witness :
    (["p1".data, "p2".data] : List Str).length ≤ 999 ∧
    List.Pairwise (fun a b => lexLt a b = true)
      ((matchPromptsToImages ["p1".data, "p2".data]
        ["x_p1_aaa.png".data, "x_p2_bbb.png".data]
        (mkRat 17 20)).matches'.map (·.newFilename)) :=
  ⟨by decide, c8_names_lex_ordered (mkRat 17 20) ["p1".data, "p2".data]
    ["x_p1_aaa.png".data, "x_p2_bbb.png".data] (by decide)⟩

/-!  Claim C2: idempotence of clean_text.  Pointwise facts about the
case folding first. -/

theorem toNat_ofNat_valid (n : Nat) (h : n < 55296) :
    (Char.ofNat n).toNat = n := by
  unfold Char.ofNat
  rw [dif_pos (Or.inl h)]
  unfold Char.ofNatAux
  simp [Char.toNat, UInt32.toNat]

theorem char_le_iff_toNat (a b : Char) : a ≤ b ↔ a.toNat ≤ b.toNat := Iff.rfl

theorem char_eq_iff_toNat (a b : Char) : a = b ↔ a.toNat = b.toNat := by
  constructor
  · intro h; rw [h]
  · intro h
    apply Char.eq_of_val_eq
    apply UInt32.toNat.inj h

theorem lowerChar_toNat_upper (c : Char) (h : 65 ≤ c.toNat)
    (h2 : c.toNat ≤ 90) : (lowerChar c).toNat = c.toNat + 32 := by
  unfold lowerChar
  rw [if_pos ⟨h, h2⟩]
  exact toNat_ofNat_valid _ (by omega)

theorem lowerChar_not_upper (c : Char) (h : ¬(65 ≤ c.toNat ∧ c.toNat ≤ 90)) :
    lowerChar c = c := by
  unfold lowerChar
  rw [if_neg h]

theorem lowerChar_lowerChar (c : Char) :
    lowerChar (lowerChar c) = lowerChar c := by
  by_cases h : 65 ≤ c.toNat ∧ c.toNat ≤ 90
  · have ht := lowerChar_toNat_upper c h.1 h.2
    apply lowerChar_not_upper
    omega
  · rw [lowerChar_not_upper c h]
    exact lowerChar_not_upper c h

theorem lowerChar_eq_dot (c : Char) (h : lowerChar c = '.') : c = '.' := by
  by_cases hc : 65 ≤ c.toNat ∧ c.toNat ≤ 90
  · exfalso
    have ht := lowerChar_toNat_upper c hc.1 hc.2
    rw [char_eq_iff_toNat] at h
    have hd : ('.' : Char).toNat = 46 := by decide
    omega
  · rwa [lowerChar_not_upper c hc] at h

theorem lowerChar_eq_und (c : Char) (h : lowerChar c = '_') : c = '_' := by
  by_cases hc : 65 ≤ c.toNat ∧ c.toNat ≤ 90
  · exfalso
    have ht := lowerChar_toNat_upper c hc.1 hc.2
    rw [char_eq_iff_toNat] at h
    have hd : ('_' : Char).toNat = 95 := by decide
    omega
  · rwa [lowerChar_not_upper c hc] at h

theorem hexChar_iff_toNat (c : Char) :
    hexChar c = true ↔
      (97 ≤ c.toNat ∧ c.toNat ≤ 102) ∨ (65 ≤ c.toNat ∧ c.toNat ≤ 70) ∨
      (48 ≤ c.toNat ∧ c.toNat ≤ 57) := by
  simp only [hexChar, Bool.or_eq_true, Bool.and_eq_true, decide_eq_true_eq]
  simp only [char_le_iff_toNat]
  have e1 : ('a' : Char).toNat = 97 := by decide
  have e2 : ('f' : Char).toNat = 102 := by decide
  have e3 : ('A' : Char).toNat = 65 := by decide
  have e4 : ('F' : Char).toNat = 70 := by decide
  have e5 : ('0' : Char).toNat = 48 := by decide
  have e6 : ('9' : Char).toNat = 57 := by decide
  rw [e1, e2, e3, e4, e5, e6]
  omega

theorem hexChar_lowerChar (c : Char) : hexChar (lowerChar c) = hexChar c := by
  by_cases hc : 65 ≤ c.toNat ∧ c.toNat ≤ 90
  · have ht := lowerChar_toNat_upper c hc.1 hc.2
    have g1 := hexChar_iff_toNat (lowerChar c)
    have g2 := hexChar_iff_toNat c
    cases h1 : hexChar (lowerChar c) <;> cases h2 : hexChar c <;>
      simp_all <;> omega
  · rw [lowerChar_not_upper c hc]

/-- Strings over which the amended idempotence claim is stated: ASCII
characters that are neither underscores nor periods. -/
def plainStr (s : Str) : Bool :=
  s.all (fun c => c.toNat < 128 && !(c = '_') && !(c = '.'))

/-- Do six hexadecimal characters open the string? -/
def startsHex6 (l : Str) : Bool :=
  ((l.take 6).length = 6) && (l.take 6).all hexChar

/-- No window of six consecutive hexadecimal characters anywhere. -/
def noRun6 : Str → Bool
  | [] => true
  | c :: cs => !(startsHex6 (c :: cs)) && noRun6 cs

theorem mem_of_head? (l : Str) (a : Char) (h : l.head? = some a) : a ∈ l := by
  cases l with
  | nil => cases h
  | cons x xs =>
    have : x = a := by simpa using h
    exact this ▸ List.mem_cons_self x xs

/-- The UUID pass only deletes characters. -/
theorem mem_removeUuidAux (fuel : Nat) :
    ∀ (l : Str) (c : Char), c ∈ removeUuidAux fuel l → c ∈ l := by
  induction fuel with
  | zero => intro l c h; exact h
  | succ fuel ih =>
    intro l c h
    cases l with
    | nil => exact h
    | cons x xs =>
      rcases hu : uuidMatchLen (x :: xs) with _ | k
      · simp only [removeUuidAux, hu] at h
        rcases List.mem_cons.mp h with rfl | h
        · exact List.mem_cons_self _ _
        · exact List.mem_cons_of_mem _ (ih xs c h)
      · simp only [removeUuidAux, hu] at h
        exact List.mem_of_mem_drop (ih _ c h)

/-- The hexadecimal-run pass only deletes characters. -/
theorem mem_removeHexRunsAux (fuel : Nat) :
    ∀ (l : Str) (c : Char), c ∈ removeHexRunsAux fuel l → c ∈ l := by
  induction fuel with
  | zero => intro l c h; exact h
  | succ fuel ih =>
    intro l c h
    cases l with
    | nil => exact h
    | cons x xs =>
      by_cases hx : hexChar x = true
      · simp only [removeHexRunsAux, hx, if_true] at h
        split at h
        · exact (List.dropWhile_suffix hexChar).subset (ih _ c h)
        · rcases List.mem_append.mp h with h | h
          · exact (List.takeWhile_prefix hexChar).subset h
          · exact (List.dropWhile_suffix hexChar).subset (ih _ c h)
      · simp only [removeHexRunsAux, hx] at h
        simp only [Bool.false_eq_true, if_false] at h
        rcases List.mem_cons.mp h with rfl | h
        · exact List.mem_cons_self _ _
        · exact List.mem_cons_of_mem _ (ih xs c h)

theorem startsWith_mem :
    ∀ (p l : Str), startsWith p l = true → ∀ c ∈ p, c ∈ l := by
  intro p
  induction p with
  | nil => intro l _ c hc; cases hc
  | cons a as ih =>
    intro l hsw c hc
    cases l with
    | nil => cases hsw
    | cons x xs =>
      simp only [startsWith, Bool.and_eq_true, decide_eq_true_eq] at hsw
      rcases List.mem_cons.mp hc with rfl | hc
      · exact hsw.1 ▸ List.mem_cons_self x xs
      · exact List.mem_cons_of_mem _ (ih xs hsw.2 c hc)

/-- With no period anywhere, the extension pass does nothing. -/
theorem removeExt_id (s : Str) (h : '.' ∉ s) : removeExt s = s := by
  have hdot : ∀ p : Str, '.' ∈ p →
      startsWith p ((lowerStr s).reverse) = false := by
    intro p hp
    cases hsw : startsWith p ((lowerStr s).reverse) with
    | false => rfl
    | true =>
      exfalso
      have h1 : '.' ∈ (lowerStr s).reverse := startsWith_mem p _ hsw '.' hp
      have h2 : '.' ∈ lowerStr s := List.mem_reverse.mp h1
      rcases List.mem_map.mp h2 with ⟨c, hc, hlc⟩
      exact h (lowerChar_eq_dot c hlc ▸ hc)
  have hz : extMatchLen s = 0 := by
    unfold extMatchLen
    simp only [hdot ['g', 'n', 'p', '.'] (by decide),
      hdot ['g', 'p', 'j', '.'] (by decide),
      hdot ['g', 'e', 'p', 'j', '.'] (by decide),
      hdot ['f', 'i', 'g', '.'] (by decide),
      hdot ['p', 'b', 'e', 'w', '.'] (by decide),
      Bool.false_eq_true, if_false]
  unfold removeExt
  rw [hz, Nat.sub_zero, List.take_length]

/-- With no underscore anywhere, the leading-token pass does nothing. -/
theorem dropLeadToken_id (s : Str) (h : '_' ∉ s) : dropLeadToken s = s := by
  unfold dropLeadToken
  have hhead : ¬ ((s.dropWhile alnumChar).head? = some '_') := by
    intro hh
    exact h ((List.dropWhile_suffix alnumChar).subset
      (mem_of_head? _ _ hh))
  by_cases hrun : (s.takeWhile alnumChar).length ≠ 0
  · rw [if_pos hrun, if_neg hhead]
  · rw [if_neg hrun]

/-- With no underscore anywhere, the trailing-run pass does nothing. -/
theorem dropTrailing_id (s : Str) (h : '_' ∉ s) : dropTrailing s = s := by
  unfold dropTrailing
  have hhead : ¬ ((s.reverse.dropWhile digChar).head? = some '_') := by
    intro hh
    exact h (List.mem_reverse.mp
      ((List.dropWhile_suffix digChar).subset (mem_of_head? _ _ hh)))
  rw [if_neg hhead]

/-- With no underscore anywhere, underscore-run collapsing does
nothing. -/
theorem collapseUnd_id (s : Str) (h : '_' ∉ s) : collapseUnd s = s := by
  match s with
  | [] => rfl
  | [c] => rfl
  | c :: d :: rest =>
    have hc : ¬ (c = '_' ∧ d = '_') := by
      intro hcd
      exact h (hcd.1 ▸ List.mem_cons_self c (d :: rest))
    have htail : '_' ∉ d :: rest := fun hm => h (List.mem_cons_of_mem _ hm)
    simp only [collapseUnd]
    rw [if_neg (by simpa using hc)]
    rw [collapseUnd_id (d :: rest) htail]

theorem dropWhileUnd_id (l : Str) (h : '_' ∉ l) :
    l.dropWhile (fun c => c = '_') = l := by
  cases l with
  | nil => rfl
  | cons c cs =>
    have hc : ¬ (c = '_') := fun e => h (e ▸ List.mem_cons_self c cs)
    rw [List.dropWhile_cons, if_neg (by simpa using hc)]

/-- With no underscore anywhere, underscore stripping does nothing. -/
theorem stripUnd_id (s : Str) (h : '_' ∉ s) : stripUnd s = s := by
  unfold stripUnd
  rw [dropWhileUnd_id s h]
  rw [dropWhileUnd_id s.reverse (fun hm => h (List.mem_reverse.mp hm))]
  exact List.reverse_reverse s

/-- Is the head, if any, non-hexadecimal? -/
def headNotHex : Str → Bool
  | [] => true
  | c :: _ => !hexChar c

theorem hexN_spec :
    ∀ (n : Nat) (l r : Str), hexN n l = some r →
      (l.take n).length = n ∧ (l.take n).all hexChar = true := by
  intro n
  induction n with
  | zero => intro l r _; simp
  | succ n ih =>
    intro l r h
    cases l with
    | nil => cases h
    | cons c cs =>
      by_cases hc : hexChar c = true
      · simp only [hexN, hc, if_true] at h
        rcases ih cs r h with ⟨h1, h2⟩
        simp [List.take_succ_cons, h1, h2, hc]
      · simp only [hexN, hc] at h
        simp only [Bool.false_eq_true, if_false] at h
        cases h

theorem startsHex6_length (l : Str) (h : startsHex6 l = true) :
    6 ≤ l.length := by
  simp only [startsHex6, Bool.and_eq_true, decide_eq_true_eq] at h
  have := h.1
  rw [List.length_take] at this
  omega

theorem startsHex6_of_uuid (l : Str) (k : Nat)
    (h : uuidMatchLen l = some k) : startsHex6 l = true := by
  unfold uuidMatchLen at h
  rcases h8 : hexN 8 l with _ | r1
  · rw [h8] at h; cases h
  · rcases hexN_spec 8 l r1 h8 with ⟨h1, h2⟩
    have hlen : 8 ≤ l.length := by
      rw [List.length_take] at h1; omega
    have htake : l.take 6 = (l.take 8).take 6 := by
      rw [List.take_take]
      norm_num
    simp only [startsHex6, Bool.and_eq_true, decide_eq_true_eq]
    constructor
    · rw [List.length_take]; omega
    · rw [htake]
      rw [List.all_eq_true] at h2 ⊢
      intro x hx
      exact h2 x (List.take_subset _ _ hx)

theorem noRun6_append_right :
    ∀ (t l : Str), noRun6 (t ++ l) = true → noRun6 l = true := by
  intro t
  induction t with
  | nil => intro l h; exact h
  | cons c cs ih =>
    intro l h
    simp only [List.cons_append, noRun6, Bool.and_eq_true] at h
    exact ih l h.2

theorem startsHex6_cons_false (c : Char) (t : Str) (hc : hexChar c = false) :
    startsHex6 (c :: t) = false := by
  simp [startsHex6, List.take_succ_cons, hc]

/-- A short all-hexadecimal block followed by a string that opens with a
non-hexadecimal character (or is empty) creates no six-run. -/
theorem noRun6_append_shortHex :
    ∀ (run r : Str), run.all hexChar = true → run.length ≤ 5 →
      headNotHex r = true → noRun6 r = true → noRun6 (run ++ r) = true := by
  intro run
  induction run with
  | nil => intro r _ _ _ h; exact h
  | cons c run' ih =>
    intro r hall hlen hhead hnr
    simp only [List.all_cons, Bool.and_eq_true] at hall
    have htail : noRun6 (run' ++ r) = true :=
      ih r hall.2 (by simp at hlen; omega) hhead hnr
    simp only [List.cons_append, noRun6, Bool.and_eq_true]
    refine ⟨?_, htail⟩
    cases hsw : startsHex6 (c :: (run' ++ r)) with
    | false => rfl
    | true =>
      exfalso
      cases r with
      | nil =>
        have := startsHex6_length _ hsw
        simp at this hlen
        omega
      | cons y r' =>
        have hy : hexChar y = false := by simpa [headNotHex] using hhead
        simp only [startsHex6, Bool.and_eq_true, decide_eq_true_eq] at hsw
        have hmem : y ∈ (c :: (run' ++ y :: r')).take 6 := by
          rw [List.take_succ_cons]
          rw [List.take_append_eq_append_take]
          have hr : run'.length ≤ 4 := by simp at hlen; omega
          obtain ⟨k, hk⟩ : ∃ k, 5 - run'.length = k + 1 :=
            ⟨5 - run'.length - 1, by omega⟩
          rw [hk, List.take_succ_cons]
          exact List.mem_cons_of_mem _
            (List.mem_append.mpr (Or.inr (List.mem_cons_self _ _)))
        have := (List.all_eq_true.mp hsw.2) y hmem
        rw [hy] at this
        cases this

theorem headNotHex_dropWhile (l : Str) :
    headNotHex (l.dropWhile hexChar) = true := by
  induction l with
  | nil => rfl
  | cons c cs ih =>
    rw [List.dropWhile_cons]
    by_cases hc : hexChar c = true
    · rw [if_pos hc]; exact ih
    · rw [if_neg hc]
      simp only [headNotHex]
      simp only [Bool.not_eq_true] at hc
      rw [hc]
      rfl

theorem headNotHex_removeHexRunsAux (fuel : Nat) (l : Str)
    (h : headNotHex l = true) :
    headNotHex (removeHexRunsAux fuel l) = true := by
  cases fuel with
  | zero => exact h
  | succ fuel =>
    cases l with
    | nil => exact h
    | cons c cs =>
      have hc : hexChar c = false := by simpa [headNotHex] using h
      simp only [removeHexRunsAux, hc]
      simp only [Bool.false_eq_true, if_false]
      simpa [headNotHex] using h

/-- The output of the hexadecimal-run pass has no six-run left. -/
theorem noRun6_removeHexRunsAux :
    ∀ (fuel : Nat) (l : Str), l.length ≤ fuel →
      noRun6 (removeHexRunsAux fuel l) = true := by
  intro fuel
  induction fuel with
  | zero =>
    intro l hl
    have : l = [] := List.length_eq_zero.mp (Nat.le_zero.mp hl)
    rw [this]
    rfl
  | succ fuel ih =>
    intro l hl
    cases l with
    | nil => rfl
    | cons c cs =>
      by_cases hc : hexChar c = true
      · have hrun1 : 1 ≤ ((c :: cs).takeWhile hexChar).length := by
          rw [List.takeWhile_cons, if_pos hc]
          simp
        have hrest : ((c :: cs).dropWhile hexChar).length ≤ fuel := by
          have hsplit := List.takeWhile_append_dropWhile (p := hexChar)
            (l := c :: cs)
          have : ((c :: cs).takeWhile hexChar).length +
              ((c :: cs).dropWhile hexChar).length = (c :: cs).length := by
            rw [← List.length_append, hsplit]
          simp only [List.length_cons] at this hl
          omega
        simp only [removeHexRunsAux, hc, if_true]
        split
        · exact ih _ hrest
        · refine noRun6_append_shortHex _ _ ?_ ?_ ?_ ?_
          · rw [List.all_eq_true]
            intro x hx
            exact List.mem_takeWhile_imp hx
          · omega
          · exact headNotHex_removeHexRunsAux fuel _ (headNotHex_dropWhile _)
          · exact ih _ hrest
      · have hcf : hexChar c = false := by
          cases h2 : hexChar c
          · rfl
          · exact absurd h2 hc
        simp only [removeHexRunsAux, hcf]
        simp only [Bool.false_eq_true, if_false]
        simp only [noRun6, Bool.and_eq_true]
        refine ⟨?_, ih cs (by simp at hl; omega)⟩
        rw [startsHex6_cons_false _ _ hcf]
        rfl

/-- A string with no six-run is left unchanged by the hexadecimal-run
pass. -/
theorem removeHexRunsAux_id :
    ∀ (fuel : Nat) (l : Str), l.length ≤ fuel → noRun6 l = true →
      removeHexRunsAux fuel l = l := by
  intro fuel
  induction fuel with
  | zero => intro l _ _; rfl
  | succ fuel ih =>
    intro l hl hnr
    cases l with
    | nil => rfl
    | cons c cs =>
      by_cases hc : hexChar c = true
      · have hshort : ¬ (6 ≤ ((c :: cs).takeWhile hexChar).length) := by
          intro h6
          have hpre := List.takeWhile_prefix (l := c :: cs) (p := hexChar)
          rcases hpre with ⟨t, ht⟩
          have hsw : startsHex6 (c :: cs) = true := by
            simp only [startsHex6, Bool.and_eq_true, decide_eq_true_eq]
            have htake : (c :: cs).take 6 =
                ((c :: cs).takeWhile hexChar).take 6 := by
              conv_lhs => rw [← ht]
              rw [List.take_append_of_le_length h6]
            constructor
            · rw [htake, List.length_take]
              omega
            · rw [htake, List.all_eq_true]
              intro x hx
              exact List.mem_takeWhile_imp (List.take_subset _ _ hx)
          simp only [noRun6, Bool.and_eq_true] at hnr
          rw [hsw] at hnr
          simpa using hnr.1
        have hrest : ((c :: cs).dropWhile hexChar).length ≤ fuel := by
          have hsplit := List.takeWhile_append_dropWhile (p := hexChar)
            (l := c :: cs)
          have : ((c :: cs).takeWhile hexChar).length +
              ((c :: cs).dropWhile hexChar).length = (c :: cs).length := by
            rw [← List.length_append, hsplit]
          have hrun1 : 1 ≤ ((c :: cs).takeWhile hexChar).length := by
            rw [List.takeWhile_cons, if_pos hc]
            simp
          simp only [List.length_cons] at this hl
          omega
        have hnrest : noRun6 ((c :: cs).dropWhile hexChar) = true := by
          refine noRun6_append_right ((c :: cs).takeWhile hexChar) _ ?_
          rw [List.takeWhile_append_dropWhile]
          exact hnr
        simp only [removeHexRunsAux, hc, if_true]
        rw [if_neg hshort]
        rw [ih _ hrest hnrest]
        exact List.takeWhile_append_dropWhile _ _
      · have hcf : hexChar c = false := by
          cases h2 : hexChar c
          · rfl
          · exact absurd h2 hc
        simp only [removeHexRunsAux, hcf]
        simp only [Bool.false_eq_true, if_false]
        rw [ih cs (by simp at hl; omega)
          (noRun6_append_right [c] cs (by simpa using hnr))]

/-- A string with no six-run is left unchanged by the UUID pass. -/
theorem removeUuidAux_id :
    ∀ (fuel : Nat) (l : Str), noRun6 l = true →
      removeUuidAux fuel l = l := by
  intro fuel
  induction fuel with
  | zero => intro l _; rfl
  | succ fuel ih =>
    intro l hnr
    cases l with
    | nil => rfl
    | cons c cs =>
      rcases hu : uuidMatchLen (c :: cs) with _ | k
      · simp only [removeUuidAux, hu]
        rw [ih cs (noRun6_append_right [c] cs (by simpa using hnr))]
      · exfalso
        have hsw := startsHex6_of_uuid _ _ hu
        simp only [noRun6, Bool.and_eq_true] at hnr
        rw [hsw] at hnr
        simpa using hnr.1

theorem lowerStr_lowerStr (l : Str) : lowerStr (lowerStr l) = lowerStr l := by
  unfold lowerStr
  rw [List.map_map]
  refine List.map_congr_left ?_
  intro c _
  exact lowerChar_lowerChar c

theorem startsHex6_lowerStr (l : Str) :
    startsHex6 (lowerStr l) = startsHex6 l := by
  simp only [startsHex6, lowerStr, ← List.map_take, List.length_map,
    List.all_map]
  have hall : ∀ t : Str, t.all (hexChar ∘ lowerChar) = t.all hexChar := by
    intro t
    induction t with
    | nil => rfl
    | cons x xs ih =>
      simp only [List.all_cons, ih, Function.comp, hexChar_lowerChar]
  rw [hall]

theorem noRun6_lowerStr (l : Str) : noRun6 (lowerStr l) = noRun6 l := by
  induction l with
  | nil => rfl
  | cons c cs ih =>
    have hmap : lowerStr (c :: cs) = lowerChar c :: lowerStr cs := rfl
    rw [hmap]
    simp only [noRun6]
    rw [← hmap, startsHex6_lowerStr, ih]

theorem removeUuid_id (l : Str) (h : noRun6 l = true) : removeUuid l = l :=
  removeUuidAux_id l.length l h

theorem removeHexRuns_id (l : Str) (h : noRun6 l = true) :
    removeHexRuns l = l :=
  removeHexRunsAux_id l.length l (Nat.le_refl _) h

theorem plainStr_mem (s : Str) (h : plainStr s = true) :
    '_' ∉ s ∧ '.' ∉ s := by
  rw [plainStr, List.all_eq_true] at h
  constructor
  · intro hm
    have := h '_' hm
    simp at this
  · intro hm
    have := h '.' hm
    simp at this

/-- C2 (counterexample): clean_text is not idempotent.  The leading
alphanumeric-token pass deletes one token per application, so a second
application of clean_text keeps shrinking the string: a_b_c cleans to
b_c, and b_c cleans further to c. -/
theorem c2_normalize_not_idempotent :
    cleanText (cleanText "a_b_c".data) ≠ cleanText "a_b_c".data ∧
    cleanText "a_b_c".data = "b_c".data ∧
    cleanText "b_c".data = "c".data := by decide

/-- C2 (amended): clean_text is idempotent on ASCII strings that
contain neither underscores nor periods.  On such strings every pass
except the identifier-run removals and the lowercasing is the
identity, the removal passes leave no six-character hexadecimal run
behind, and lowercasing preserves that state, so the second
application changes nothing. -/
theorem c2_normalize_idempotent_on_plain (s : Str)
    (h : plainStr s = true) :
    cleanText (cleanText s) = cleanText s := by
  obtain ⟨hu, hd⟩ := plainStr_mem s h
  have hu1 : '_' ∉ removeUuid s :=
    fun hm => hu (mem_removeUuidAux _ _ _ hm)
  have hd1 : '.' ∉ removeUuid s :=
    fun hm => hd (mem_removeUuidAux _ _ _ hm)
  have hu2 : '_' ∉ removeHexRuns (removeUuid s) :=
    fun hm => hu1 (mem_removeHexRunsAux _ _ _ hm)
  have hd2 : '.' ∉ removeHexRuns (removeUuid s) :=
    fun hm => hd1 (mem_removeHexRunsAux _ _ _ hm)
  have hpass : cleanText s = lowerStr (removeHexRuns (removeUuid s)) := by
    unfold cleanText
    rw [removeExt_id _ hd2, dropLeadToken_id _ hu2, dropTrailing_id _ hu2,
        collapseUnd_id _ hu2, stripUnd_id _ hu2]
  have hnr : noRun6 (removeHexRuns (removeUuid s)) = true :=
    noRun6_removeHexRunsAux _ _ (Nat.le_refl _)
  have hnro : noRun6 (lowerStr (removeHexRuns (removeUuid s))) = true := by
    rw [noRun6_lowerStr]
    exact hnr
  have huo : '_' ∉ lowerStr (removeHexRuns (removeUuid s)) := by
    intro hm
    rcases List.mem_map.mp hm with ⟨c, hc, hlc⟩
    exact hu2 (lowerChar_eq_und c hlc ▸ hc)
  have hdo : '.' ∉ lowerStr (removeHexRuns (removeUuid s)) := by
    intro hm
    rcases List.mem_map.mp hm with ⟨c, hc, hlc⟩
    exact hd2 (lowerChar_eq_dot c hlc ▸ hc)
  rw [hpass]
  unfold cleanText
  rw [removeUuid_id _ hnro, removeHexRuns_id _ hnro, removeExt_id _ hdo,
      dropLeadToken_id _ huo, dropTrailing_id _ huo, collapseUnd_id _ huo,
      stripUnd_id _ huo]
  exact lowerStr_lowerStr _

/-- Witness for C2 at a concrete input: hello world is ASCII with no
underscore or period, and clean_text is idempotent on it. -/
theorem c2_normalize_idempotent_witness :
    plainStr "hello world".data = true ∧
    cleanText (cleanText "hello world".data) = cleanText "hello world".data :=
  ⟨by decide, c2_normalize_idempotent_on_plain "hello world".data (by decide)⟩
